import Mathlib

set_option maxRecDepth 10000

/-!
Verification of the speculative parallel graph-coloring engine
(`main_coloring.cpp`, `graph_txn.h` / `graph_txn.cpp`, `src/main.cpp`).

The embedding gives the program sequential semantics: the OpenMP worker
loops become folds over the iteration space in index order, the TSX
transaction body executes atomically (a first-try transaction always
succeeds and the MaxColor re-check never fires, since no concurrent
writer exists), and `std::atomic` cells become plain fields of an
explicit state record that is threaded through the phases.

Machine `int` values are modelled as `Int` (no arithmetic here comes
near overflow); the sentinel color `-1` for "uncolored" is kept as the
literal `-1`.
-/

/-- The graph store of `graph_txn.h`: `num_vertices`, `num_edges` and one
adjacency list per vertex (`std::vector<std::vector<int>>`). -/
structure Graph where
  num_vertices : Nat
  adjacency_lists : List (List Nat)
  num_edges : Nat
deriving Repr, DecidableEq

/-- `Graph::getNeighbors`: the adjacency list of `v` (out-of-range reads
do not occur in the modelled runs; `getD` totalizes them harmlessly). -/
def Graph.getNeighbors (g : Graph) (v : Nat) : List Nat :=
  g.adjacency_lists.getD v []

/-- `vertex_degrees[v] = graph.getNeighbors(v).size()` from
`OptimizedTSXGraphColoring::prepareVertices`. -/
def Graph.degree (g : Graph) (v : Nat) : Nat :=
  (g.getNeighbors v).length

/-- `Graph::addEdge` from `graph_txn.h`: the bounds check precedes every
mutation and throws `std::out_of_range`; otherwise `v` is appended to
`adj[u]`, `u` is appended to `adj[v]` only when `u != v` (the code's
self-loop handling), and `num_edges` is incremented.  The Boolean result
records whether the exception was thrown; on `true` the returned graph
is the untouched input, mirroring that the C++ object is not mutated. -/
def Graph.addEdge (g : Graph) (u v : Int) : Graph × Bool :=
  if u < 0 || u ≥ (g.num_vertices : Int) || v < 0 || v ≥ (g.num_vertices : Int) then
    (g, true)
  else
    let a1 := g.adjacency_lists.set u.toNat ((g.adjacency_lists.getD u.toNat []) ++ [v.toNat])
    let a2 := if u = v then a1
              else a1.set v.toNat ((a1.getD v.toNat []) ++ [u.toNat])
    ({ g with adjacency_lists := a2, num_edges := g.num_edges + 1 }, false)

/-- The scan loop of `findMinAvailableColor`: starting at color `k`, with
`n` candidate colors left, return the first color that is not forbidden,
or `none` when the scan runs off the end of the buffer. -/
def firstNotBad (bad : Nat → Bool) : Nat → Nat → Option Nat
  | 0, _ => none
  | n+1, k => if bad k then firstNotBad bad n (k+1) else some k

/-- `forbidden[c]` after the marking loop of `findMinAvailableColor`:
for a candidate `c` inside the buffer, the cell is set exactly when some
neighbor's current color equals `c`. -/
def forbiddenColor (g : Graph) (colors : List Int) (vertex : Nat) (c : Int) : Bool :=
  (g.getNeighbors vertex).any (fun u => colors.getD u (-1) == c)

/-- `OptimizedTSXGraphColoring::findMinAvailableColor`: buffer of
`current_max_color + 16` candidate colors (`MIN_COLORS_BUFFER`), mark the
colors of neighbors, return the first unmarked color, and fall back to
`current_max_color` if every candidate is marked. -/
def findMinAvailableColor (g : Graph) (colors : List Int) (vertex : Nat)
    (current_max_color : Int) : Int :=
  let buffer_size := current_max_color + 16
  match firstNotBad (fun k => forbiddenColor g colors vertex (k : Int)) buffer_size.toNat 0 with
  | some c => (c : Int)
  | none => current_max_color

/-- The shared mutable state of a run: the `colors` array and the
`max_color` atomic counter. -/
structure CState where
  colors : List Int
  max_color : Int
deriving Repr, DecidableEq

/-- Phase 1 of `colorGraph` (the pre-coloring pass): walk
`ordered_vertices` from the front while the degree exceeds the
threshold; each such vertex gets `findMinAvailableColor` at the running
`current_max`, which is then raised to `max(current_max, color+1)`.
Returns the colors, the final `current_max` (stored into `max_color`),
and the unprocessed suffix of the order (the parallel phase starts at
index `high_degree_count`). -/
def preColorHighDegree (g : Graph) (threshold : Int) :
    List Nat → List Int → Int → List Int × Int × List Nat
  | [], colors, current_max => (colors, current_max, [])
  | v :: rest, colors, current_max =>
    if (g.degree v : Int) > threshold then
      let c := findMinAvailableColor g colors v current_max
      preColorHighDegree g threshold rest (colors.set v c) (max current_max (c + 1))
    else (colors, current_max, v :: rest)

/-- `OptimizedTSXGraphColoring::colorHighContentionVertex`: under the
`high_contention` critical section, read `max_color`, compute the
minimum available color, bump `max_color` to `min_color + 1` when
`min_color >= current_max`, and write the color. -/
def colorHighContentionVertex (g : Graph) (s : CState) (vertex : Nat) : CState :=
  let current_max := s.max_color
  let min_color := findMinAvailableColor g s.colors vertex current_max
  { colors := s.colors.set vertex min_color,
    max_color := if min_color ≥ current_max then min_color + 1 else current_max }

/-- The TSX transaction body (lines 246-272 of `main_coloring.cpp`) under
sequential semantics: the first attempt starts and commits, the
`max_color` re-check never aborts (no concurrent writer), and on the
first try the precomputed color is used when still below `current_max`,
otherwise recomputed from scratch. -/
def txnColorStep (g : Graph) (s : CState) (vertex : Nat) (precomputed_color : Int) : CState :=
  let current_max := s.max_color
  let min_color := if precomputed_color < current_max then precomputed_color
                   else findMinAvailableColor g s.colors vertex current_max
  { colors := s.colors.set vertex min_color,
    max_color := if min_color ≥ current_max then min_color + 1 else current_max }

/-- One iteration of the phase-2 parallel loop for one vertex: skip if
already colored, take the serialized path when `degree > 100`
(`isHighContentionVertex`), otherwise precompute a color, commit it
directly when it is below `max_color`, and otherwise run the
transaction. -/
def speculativeStep (g : Graph) (s : CState) (vertex : Nat) : CState :=
  if s.colors.getD vertex (-1) ≠ -1 then s
  else if g.degree vertex > 100 then colorHighContentionVertex g s vertex
  else
    let precomputed_color := findMinAvailableColor g s.colors vertex s.max_color
    if precomputed_color < s.max_color then
      { s with colors := s.colors.set vertex precomputed_color }
    else txnColorStep g s vertex precomputed_color

/-- Phase 2 of `colorGraph`: the speculative parallel loop over the
remaining order, sequential semantics. -/
def speculativePhase (g : Graph) (s : CState) (rest : List Nat) : CState :=
  rest.foldl (speculativeStep g) s

/-- The body of the conflict detector's neighbor loop: skip neighbors
with a smaller index (each edge is examined once), and on a
monochromatic edge flag `vertex` when
`vertex_degrees[vertex] <= vertex_degrees[neighbor]`, else flag
`neighbor`. -/
def detectBody (g : Graph) (colors : List Int) (vertex : Nat) (fl : List Bool)
    (neighbor : Nat) : List Bool :=
  if neighbor < vertex then fl
  else if colors.getD vertex (-1) == colors.getD neighbor (-1) then
    if g.degree vertex ≤ g.degree neighbor then fl.set vertex true
    else fl.set neighbor true
  else fl

/-- The inner loop of the conflict detector for one `vertex`. -/
def detectAtVertex (g : Graph) (colors : List Int) (flags : List Bool) (vertex : Nat) :
    List Bool :=
  (g.getNeighbors vertex).foldl (detectBody g colors vertex) flags

/-- The conflict-detection pass (lines 299-330 of `main_coloring.cpp`):
reset all flags, then run `detectAtVertex` over every vertex. -/
def detectConflicts (g : Graph) (colors : List Int) : List Bool :=
  (List.range g.num_vertices).foldl (detectAtVertex g colors)
    (List.replicate g.num_vertices false)

/-- `has_conflicts` as the detection pass computes it: some vertex sees a
not-yet-skipped neighbor with an equal color. -/
def hasConflicts (g : Graph) (colors : List Int) : Bool :=
  (List.range g.num_vertices).any (fun vertex =>
    (g.getNeighbors vertex).any (fun neighbor =>
      !(neighbor < vertex) && colors.getD vertex (-1) == colors.getD neighbor (-1)))

/-- The endpoint the detector flags for a monochromatic edge examined at
`vertex` with `neighbor`: the code's branch
`vertex_degrees[vertex] <= vertex_degrees[neighbor]`. -/
def detectMark (g : Graph) (vertex neighbor : Nat) : Nat :=
  if g.degree vertex ≤ g.degree neighbor then vertex else neighbor

/-- The body of the conflict-resolution loop for one vertex: a flagged
vertex receives `max_color.fetch_add(1)` — the old counter value — as a
fresh unique color, with no neighbor inspection. -/
def resolveBody (flags : List Bool) (t : CState) (vertex : Nat) : CState :=
  if flags.getD vertex false then
    { colors := t.colors.set vertex t.max_color, max_color := t.max_color + 1 }
  else t

/-- The conflict-resolution pass (lines 353-361 of `main_coloring.cpp`). -/
def resolveConflicts (g : Graph) (s : CState) (flags : List Bool) : CState :=
  (List.range g.num_vertices).foldl (resolveBody flags) s

/-- Phase 3 of `colorGraph`: up to `MAX_RESOLUTION_ITERATIONS = 2`
rounds of detect-then-resolve, exiting early when no conflict is
found. -/
def resolutionLoop (g : Graph) : Nat → CState → CState
  | 0, s => s
  | k+1, s =>
    if hasConflicts g s.colors then
      resolutionLoop g k (resolveConflicts g s (detectConflicts g s.colors))
    else s

/-- The comparison handed to `std::sort` in `prepareVertices`, as its
reflexive closure (`a` may come no later than `b`): strictly larger
degree first, equal degrees broken by ascending index.  `std::sort`
returns the sequence sorted by the strict comparator
`deg a > deg b || (deg a = deg b && a < b)`; since that comparator is a
strict total order the sorted permutation is unique, and it is exactly
the one sorted by this reflexive closure. -/
def degreeLE (g : Graph) (a b : Nat) : Prop :=
  g.degree b < g.degree a ∨ (g.degree a = g.degree b ∧ a ≤ b)

instance (g : Graph) (a b : Nat) : Decidable (degreeLE g a b) := by
  unfold degreeLE; infer_instance

instance (g : Graph) : IsTotal Nat (degreeLE g) where
  total a b := by
    unfold degreeLE
    rcases Nat.lt_trichotomy (g.degree a) (g.degree b) with h | h | h
    · exact Or.inr (Or.inl h)
    · rcases Nat.le_total a b with hab | hab
      · exact Or.inl (Or.inr ⟨h, hab⟩)
      · exact Or.inr (Or.inr ⟨h.symm, hab⟩)
    · exact Or.inl (Or.inl h)

instance (g : Graph) : IsTrans Nat (degreeLE g) where
  trans a b c hab hbc := by
    unfold degreeLE at hab hbc ⊢
    rcases hab with h1 | ⟨h1, h1i⟩ <;> rcases hbc with h2 | ⟨h2, h2i⟩
    · exact Or.inl (h2.trans h1)
    · exact Or.inl (h2 ▸ h1)
    · exact Or.inl (h1 ▸ h2)
    · exact Or.inr ⟨h1.trans h2, h1i.trans h2i⟩

instance (g : Graph) : IsAntisymm Nat (degreeLE g) where
  antisymm a b hab hba := by
    unfold degreeLE at hab hba
    rcases hab with h1 | ⟨h1, h1i⟩ <;> rcases hba with h2 | ⟨h2, h2i⟩ <;> omega

/-- The `max_degree` scan of the binning branch of `prepareVertices`. -/
def maxDegree (g : Graph) : Nat :=
  (List.range g.num_vertices).foldl (fun m v => max m (g.degree v)) 0

/-- The binning branch of `prepareVertices` (`num_vertices > 10000`):
bucket the vertices by degree — pushing in ascending vertex order, so
bin `d` is `filter (degree = d)` of `0..N-1` — then emit the bins from
the highest degree down. -/
def binOrder (g : Graph) : List Nat :=
  ((List.range (maxDegree g + 1)).reverse).flatMap
    (fun d => (List.range g.num_vertices).filter (fun v => g.degree v == d))

/-- `OptimizedTSXGraphColoring::prepareVertices`: counting bins for
large graphs, `std::sort` with the degree comparator otherwise.
`std::sort` is modelled by `List.insertionSort`: both return a
permutation of the input sorted by the comparator, and under the strict
total order of `prepareVertices` that permutation is unique. -/
def prepareVertices (g : Graph) : List Nat :=
  if g.num_vertices > 10000 then binOrder g
  else List.insertionSort (degreeLE g) (List.range g.num_vertices)

/-- `OptimizedTSXGraphColoring::colorGraph`, sequential semantics, full
state: the pre-coloring pass with threshold `max(50, N/100)` seeds
`max_color`, the speculative phase colors the remaining order, and the
resolution loop runs at most 2 rounds. -/
def colorGraphState (g : Graph) (num_threads : Nat) : CState :=
  let ordered_vertices := prepareVertices g
  let high_degree_threshold : Int := max 50 ((g.num_vertices : Int) / 100)
  let p := preColorHighDegree g high_degree_threshold ordered_vertices
             (List.replicate g.num_vertices (-1)) 0
  let s1 : CState := { colors := p.1, max_color := p.2.1 }
  let s2 := speculativePhase g s1 p.2.2
  let _ := num_threads
  resolutionLoop g 2 s2

/-- The coloring `colorGraph` returns. -/
def colorGraph (g : Graph) (num_threads : Nat) : List Int :=
  (colorGraphState g num_threads).colors

/-- `verifyColoring` from `main_coloring.cpp`: scan every vertex's
neighbor list and fail on any equal pair of colors. -/
def verifyColoring (g : Graph) (colors : List Int) : Bool :=
  (List.range g.num_vertices).all (fun vertex =>
    (g.getNeighbors vertex).all (fun neighbor =>
      !(colors.getD vertex (-1) == colors.getD neighbor (-1))))

/-- `countColors`: 0 on an empty array, otherwise the maximum color plus
one. -/
def countColors (colors : List Int) : Int :=
  match colors with
  | [] => 0
  | c :: rest => rest.foldl max c + 1

/-- `main` of `main_coloring.cpp` as a function of the modelled events:
fewer than 2 arguments returns 1; a load that throws is caught and
returns 1; otherwise the coloring runs, `verifyColoring` is computed
(and only printed), and the function returns 0. -/
def mainExitCode (argc : Nat) (loadResult : Option Graph) (num_threads : Nat) : Nat :=
  if argc < 2 then 1
  else
    match loadResult with
    | none => 1
    | some graph =>
      let colors := colorGraph graph num_threads
      let _is_valid := verifyColoring graph colors
      let _num_colors := countColors colors
      0

/-- `createCompleteTest` from `src/main.cpp`: 5000 nodes `0..4999` and
every pair `(i, j)` with `i < j`. -/
def createCompleteTest : List Nat × List (Nat × Nat) :=
  (List.range 5000,
   (List.range 5000).flatMap (fun i => ((List.range 5000).drop (i + 1)).map (fun j => (i, j))))

/-- The input-selection step of `main` in `src/main.cpp`: the nodes and
pairs read from the file when `readGraphFromFile` succeeds, and the
`createCompleteTest` instance when it fails. -/
def mainGraphInput (fileResult : Option (List Nat × List (Nat × Nat))) :
    List Nat × List (Nat × Nat) :=
  match fileResult with
  | some r => r
  | none => createCompleteTest

/-- Well-formedness of a graph in the sense of the spec's data model
(§3): neighbor indices in range, neighbor-list symmetry (I4), and no
self-loops (I5). -/
def Graph.WF (g : Graph) : Prop :=
  (∀ v, v < g.num_vertices → ∀ u ∈ g.getNeighbors v, u < g.num_vertices) ∧
  (∀ v, v < g.num_vertices → ∀ u ∈ g.getNeighbors v, v ∈ g.getNeighbors u) ∧
  (∀ v, v < g.num_vertices → v ∉ g.getNeighbors v)

instance (g : Graph) : Decidable g.WF := by
  unfold Graph.WF; infer_instance

/-- Invariant I1 (range): every assigned color lies in `[0, m)`. -/
def ColorsOK (g : Graph) (colors : List Int) (m : Int) : Prop :=
  ∀ v, v < g.num_vertices →
    colors.getD v (-1) = -1 ∨ (0 ≤ colors.getD v (-1) ∧ colors.getD v (-1) < m)

/-- Partial properness: no edge joins two like-colored vertices, where
uncolored endpoints are exempt. -/
def ProperPartial (g : Graph) (colors : List Int) : Prop :=
  ∀ v, v < g.num_vertices → ∀ u ∈ g.getNeighbors v,
    colors.getD v (-1) = -1 ∨ colors.getD u (-1) = -1 ∨
      colors.getD v (-1) ≠ colors.getD u (-1)

/-- The run invariant: the colors array has one cell per vertex,
`max_color` is non-negative, I1 holds, and the colored part is proper. -/
def RunInv (g : Graph) (s : CState) : Prop :=
  s.colors.length = g.num_vertices ∧ 0 ≤ s.max_color ∧
    ColorsOK g s.colors s.max_color ∧ ProperPartial g s.colors

/-- Minimum excludant, as the spec words it (§4.3, glossary): the
smallest non-negative integer not in the given collection.  The scan is
bounded by `length + 1`, which always contains a gap. -/
def mexSpec (cs : List Int) : Int :=
  match firstNotBad (fun k => cs.contains ((k : Nat) : Int)) (cs.length + 1) 0 with
  | some r => (r : Int)
  | none => 0

/-- The colors of the already-colored neighbors of `v`, the set the
spec's pre-coloring pass takes the mex of. -/
def coloredNeighborColors (g : Graph) (colors : List Int) (v : Nat) : List Int :=
  ((g.getNeighbors v).map (fun u => colors.getD u (-1))).filter (fun x => !(x == -1))

/-- The pre-coloring pass exactly as §4.3 of the spec words it: walk the
order from the front while the degree exceeds the threshold, assign
`color[v] = mex(colors-of-already-colored-neighbors)`, and update
`MaxColor := max(MaxColor, color[v]+1)`.  Spec-side definition, to be
compared with `preColorHighDegree` (claim C5). -/
def specPreColor (g : Graph) (threshold : Int) :
    List Nat → List Int → Int → List Int × Int × List Nat
  | [], colors, current_max => (colors, current_max, [])
  | v :: rest, colors, current_max =>
    if (g.degree v : Int) > threshold then
      let c := mexSpec (coloredNeighborColors g colors v)
      specPreColor g threshold rest (colors.set v c) (max current_max (c + 1))
    else (colors, current_max, v :: rest)

/-- A triangle: the smallest graph with a 3-chromatic core, used as a
concrete test input. -/
def triangleG : Graph :=
  { num_vertices := 3, adjacency_lists := [[1, 2], [0, 2], [0, 1]], num_edges := 3 }

/-- A single undirected edge on two vertices (equal degrees). -/
def pathTwoG : Graph :=
  { num_vertices := 2, adjacency_lists := [[1], [0]], num_edges := 1 }

/-- A path on three vertices; the middle vertex has the larger degree. -/
def pathThreeG : Graph :=
  { num_vertices := 3, adjacency_lists := [[1], [0, 2], [1]], num_edges := 2 }

/-- The graph the loader builds from an input file whose only edge line
is `0 0`: one vertex whose adjacency list contains itself once
(`Graph::addEdge` stores the self-loop). -/
def selfLoopG : Graph :=
  { num_vertices := 1, adjacency_lists := [[0]], num_edges := 1 }

/-- The number of flagged vertices with index below `v`: the rank at
which the repair loop's `fetch_add` serves vertex `v`. -/
def flaggedCountBelow (flags : List Bool) (v : Nat) : Nat :=
  ((List.range v).filter (fun i => flags.getD i false)).length

/-- A one-vertex graph with no edges, as `Graph(1)` constructs it. -/
def oneVertexG : Graph :=
  { num_vertices := 1, adjacency_lists := [[]], num_edges := 0 }

/-! ## Generic list helpers -/

theorem getD_set_ne {α : Type} {l : List α} {t w : Nat} {a d : α} (h : w ≠ t) :
    (l.set t a).getD w d = l.getD w d := by
  simp [List.getD_eq_getElem?_getD, List.getElem?_set_ne (Ne.symm h)]

theorem getD_set_self {α : Type} {l : List α} {t : Nat} {a d : α} (h : t < l.length) :
    (l.set t a).getD t d = a := by
  simp [List.getD_eq_getElem?_getD, List.getElem?_set_self h]

theorem getD_set_true {l : List Bool} {t w : Nat} (h : l.getD w false = true) :
    (l.set t true).getD w false = true := by
  by_cases hw : w = t
  · subst hw
    by_cases hl : w < l.length
    · exact getD_set_self hl
    · rw [List.set_eq_of_length_le (Nat.le_of_not_lt hl)]
      exact h
  · rw [getD_set_ne hw]
    exact h

/-! ## Conflict-detector lemmas -/

theorem detectBody_length (g : Graph) (colors : List Int) (v : Nat) (fl : List Bool)
    (u : Nat) : (detectBody g colors v fl u).length = fl.length := by
  unfold detectBody
  repeat' split
  all_goals simp [List.length_set]

theorem detectBody_preserve {g : Graph} {colors : List Int} {v : Nat} {fl : List Bool}
    {u w : Nat} (h : fl.getD w false = true) :
    (detectBody g colors v fl u).getD w false = true := by
  unfold detectBody
  repeat' split
  all_goals first
    | exact h
    | exact getD_set_true h

theorem detectFold_preserve {g : Graph} {colors : List Int} {v : Nat} :
    ∀ (l : List Nat) (fl : List Bool) (w : Nat), fl.getD w false = true →
      (l.foldl (detectBody g colors v) fl).getD w false = true := by
  intro l
  induction l with
  | nil => intro fl w h; exact h
  | cons u rest ih =>
    intro fl w h
    exact ih _ _ (detectBody_preserve h)

theorem detectAtVertex_preserve {g : Graph} {colors : List Int} {v : Nat}
    {fl : List Bool} {w : Nat} (h : fl.getD w false = true) :
    (detectAtVertex g colors fl v).getD w false = true :=
  detectFold_preserve _ _ _ h

theorem detectBody_sets {g : Graph} {colors : List Int} {u v : Nat} {fl : List Bool}
    (hge : ¬ v < u) (heq : colors.getD u (-1) = colors.getD v (-1))
    (hlt : detectMark g u v < fl.length) :
    (detectBody g colors u fl v).getD (detectMark g u v) false = true := by
  unfold detectMark at hlt ⊢
  unfold detectBody
  rw [if_neg hge, if_pos (by simpa using heq)]
  by_cases hdeg : g.degree u ≤ g.degree v
  · simp only [if_pos hdeg] at hlt ⊢
    exact getD_set_self hlt
  · simp only [if_neg hdeg] at hlt ⊢
    exact getD_set_self hlt

theorem foldl_detectBody_length (g : Graph) (colors : List Int) (x : Nat) :
    ∀ (nb : List Nat) (fl : List Bool),
      (nb.foldl (detectBody g colors x) fl).length = fl.length := by
  intro nb
  induction nb with
  | nil => intro fl; rfl
  | cons y r ih =>
    intro fl
    simp only [List.foldl_cons]
    rw [ih, detectBody_length]

theorem detectAtVertex_length (g : Graph) (colors : List Int) (fl : List Bool) (x : Nat) :
    (detectAtVertex g colors fl x).length = fl.length :=
  foldl_detectBody_length g colors x _ fl

theorem foldl_detectAtVertex_length (g : Graph) (colors : List Int) :
    ∀ (l : List Nat) (fl : List Bool),
      (l.foldl (detectAtVertex g colors) fl).length = fl.length := by
  intro l
  induction l with
  | nil => intro fl; rfl
  | cons x rest ih =>
    intro fl
    simp only [List.foldl_cons]
    rw [ih, detectAtVertex_length]

theorem detectFold_sets {g : Graph} {colors : List Int} {u v : Nat} :
    ∀ (l : List Nat) (fl : List Bool), v ∈ l →
      (¬ v < u) → colors.getD u (-1) = colors.getD v (-1) →
      detectMark g u v < fl.length →
      (l.foldl (detectBody g colors u) fl).getD (detectMark g u v) false = true := by
  intro l
  induction l with
  | nil => intro fl hmem; exact absurd hmem (List.not_mem_nil v)
  | cons x rest ih =>
    intro fl hmem hge heq hlt
    simp only [List.foldl_cons]
    rcases List.mem_cons.mp hmem with hx | hx
    · subst hx
      exact detectFold_preserve rest _ _ (detectBody_sets hge heq hlt)
    · exact ih _ hx hge heq (by rw [detectBody_length]; exact hlt)

theorem detectConflicts_length (g : Graph) (colors : List Int) :
    (detectConflicts g colors).length = g.num_vertices := by
  unfold detectConflicts
  rw [foldl_detectAtVertex_length, List.length_replicate]

theorem detectConflicts_marks {g : Graph} {colors : List Int} {u v : Nat}
    (hu : u < g.num_vertices) (hadj : v ∈ g.getNeighbors u) (hge : ¬ v < u)
    (heq : colors.getD u (-1) = colors.getD v (-1))
    (hmark : detectMark g u v < g.num_vertices) :
    (detectConflicts g colors).getD (detectMark g u v) false = true := by
  unfold detectConflicts
  have main : ∀ (l : List Nat) (fl : List Bool), u ∈ l → detectMark g u v < fl.length →
      (l.foldl (detectAtVertex g colors) fl).getD (detectMark g u v) false = true := by
    intro l
    induction l with
    | nil => intro fl hmem; exact absurd hmem (List.not_mem_nil u)
    | cons x rest ih =>
      intro fl hmem hlen
      simp only [List.foldl_cons]
      rcases List.mem_cons.mp hmem with hx | hx
      · have hset : (detectAtVertex g colors fl x).getD (detectMark g u v) false = true := by
          subst hx
          exact detectFold_sets _ _ hadj hge heq hlen
        have hpres : ∀ (r : List Nat) (fl2 : List Bool),
            fl2.getD (detectMark g u v) false = true →
            (r.foldl (detectAtVertex g colors) fl2).getD (detectMark g u v) false = true := by
          intro r
          induction r with
          | nil => intro fl2 h2; exact h2
          | cons y rr ihr =>
            intro fl2 h2
            simp only [List.foldl_cons]
            exact ihr _ (detectAtVertex_preserve h2)
        exact hpres _ _ hset
      · exact ih _ hx (by rw [detectAtVertex_length]; exact hlen)
  exact main _ _ (List.mem_range.mpr hu) (by rw [List.length_replicate]; exact hmark)

/-! ## Claim C3: which endpoint the conflict detector marks -/

/-- C3 counterexample: on a single edge `(0,1)` with equal colors and
equal degrees, the detector marks endpoint 0 — the *smaller* index —
not the larger index the claim states. -/
theorem detect_tie_marks_smaller_index_cex :
    pathTwoG.degree 0 = pathTwoG.degree 1 ∧
    (1 : Nat) ∈ pathTwoG.getNeighbors 0 ∧
    (([0, 0] : List Int).getD 0 (-1) = ([0, 0] : List Int).getD 1 (-1)) ∧
    detectConflicts pathTwoG [0, 0] = [true, false] := by
  refine ⟨by decide, by decide, by decide, by decide⟩

/-- C3 (amended): for each edge `(u,v)` with `u < v` whose endpoints
have equal colors, the conflict detector's processing of that edge marks
exactly one endpoint, `detectMark g u v`: the endpoint with smaller
degree, and when the two degrees are equal, the endpoint with the
*smaller* index (the code's `<=` branch flags `vertex`, the smaller
index, on ties). -/
theorem detectConflicts_marks_smaller_degree (g : Graph) (colors : List Int) (u v : Nat)
    (hu : u < g.num_vertices) (hv : v < g.num_vertices)
    (hadj : v ∈ g.getNeighbors u) (huv : u < v)
    (heq : colors.getD u (-1) = colors.getD v (-1)) :
    (∀ fl : List Bool, detectBody g colors u fl v = fl.set (detectMark g u v) true) ∧
    (detectConflicts g colors).getD (detectMark g u v) false = true ∧
    (detectMark g u v = u ∨ detectMark g u v = v) ∧
    g.degree (detectMark g u v) ≤ g.degree u ∧
    g.degree (detectMark g u v) ≤ g.degree v ∧
    (g.degree u = g.degree v → detectMark g u v = u) := by
  have hge : ¬ v < u := by omega
  have hmark : detectMark g u v < g.num_vertices := by
    unfold detectMark; split
    · exact hu
    · exact hv
  refine ⟨?_, detectConflicts_marks hu hadj hge heq hmark, ?_, ?_, ?_, ?_⟩
  · intro fl
    unfold detectBody detectMark
    rw [if_neg hge, if_pos (by simpa using heq)]
    by_cases hdeg : g.degree u ≤ g.degree v
    · simp only [if_pos hdeg]
    · simp only [if_neg hdeg]
  · unfold detectMark; split
    · exact Or.inl rfl
    · exact Or.inr rfl
  · unfold detectMark; split <;> omega
  · unfold detectMark; split <;> omega
  · intro hd
    unfold detectMark
    rw [if_pos (Nat.le_of_eq hd)]

/-- Witness for C3's amended theorem at the concrete tie instance. -/
theorem detectConflicts_marks_smaller_degree_witness :
    (detectConflicts pathTwoG [0, 0]).getD (detectMark pathTwoG 0 1) false = true ∧
    detectMark pathTwoG 0 1 = 0 :=
  ⟨(detectConflicts_marks_smaller_degree pathTwoG [0, 0] 0 1 (by decide) (by decide)
      (by decide) (by decide) (by decide)).2.1,
   by decide⟩

/-! ## Claim C7: process exit codes -/

/-- C7 counterexample: for the graph the loader builds from an input
file whose only edge line is a self-loop, the verifier reports the final
coloring invalid, yet `main` still returns 0 — the exit code ignores the
verification verdict. -/
theorem mainExitCode_invalid_cex :
    verifyColoring selfLoopG (colorGraph selfLoopG 1) = false ∧
    mainExitCode 2 (some selfLoopG) 1 = 0 := by
  refine ⟨by decide, by decide⟩

/-- C7 (amended): the exit code is 1 on bad arguments (fewer than 2) and
1 when loading throws; whenever the argument count is at least 2 and the
load succeeds, the exit code is 0 — even when the final verification
reports the coloring invalid. -/
theorem mainExitCode_amended (argc : Nat) (g : Graph) (num_threads : Nat)
    (L : Option Graph) (h : 2 ≤ argc) :
    mainExitCode argc (some g) num_threads = 0 ∧
    mainExitCode argc none num_threads = 1 ∧
    mainExitCode 1 L num_threads = 1 := by
  unfold mainExitCode
  refine ⟨?_, ?_, ?_⟩
  · rw [if_neg (by omega)]
  · rw [if_neg (by omega)]
  · rw [if_pos (by omega)]

/-- Witness for C7's amended theorem. -/
theorem mainExitCode_amended_witness :
    mainExitCode 2 (some triangleG) 4 = 0 ∧
    mainExitCode 2 none 4 = 1 ∧
    mainExitCode 1 none 4 = 1 :=
  mainExitCode_amended 2 triangleG 4 none (by decide)

/-! ## Claim C8: self-loops are stored, not dropped -/

/-- C8 counterexample: adding the self-loop `(0,0)` to a one-vertex
graph stores `0` in its own adjacency list and counts the edge, so the
built graph does contain a self-loop. -/
theorem addEdge_self_loop_cex :
    (oneVertexG.addEdge 0 0).1 =
      { num_vertices := 1, adjacency_lists := [[0]], num_edges := 1 } ∧
    (0 : Nat) ∈ (oneVertexG.addEdge 0 0).1.getNeighbors 0 := by
  refine ⟨by decide, by decide⟩

/-- C8 (amended): `Graph::addEdge` does not drop an in-range self-loop
`(v,v)`: it appends `v` once to `adj[v]` (the `u != v` guard only avoids
the second, symmetric append) and increments the edge count, so the
built graph may contain self-loops. -/
theorem addEdge_self_loop_stored (g : Graph) (u : Nat) (hu : u < g.num_vertices) :
    (g.addEdge u u).2 = false ∧
    (g.addEdge u u).1.num_edges = g.num_edges + 1 ∧
    (g.addEdge u u).1.adjacency_lists =
      g.adjacency_lists.set u (g.adjacency_lists.getD u [] ++ [u]) := by
  unfold Graph.addEdge
  rw [if_neg (by simp; omega)]
  refine ⟨rfl, rfl, ?_⟩
  simp

/-- Witness for C8's amended theorem. -/
theorem addEdge_self_loop_stored_witness :
    (oneVertexG.addEdge 0 0).2 = false ∧
    (oneVertexG.addEdge 0 0).1.num_edges = oneVertexG.num_edges + 1 ∧
    (oneVertexG.addEdge 0 0).1.adjacency_lists =
      oneVertexG.adjacency_lists.set 0 (oneVertexG.adjacency_lists.getD 0 [] ++ [0]) :=
  addEdge_self_loop_stored oneVertexG 0 (by decide)

/-! ## Claim C9: the loader's fallback instance -/

theorem drop_range_eq {a n : Nat} (h : a ≤ n) :
    (List.range n).drop a = (List.range (n - a)).map (a + ·) := by
  conv_lhs => rw [show n = a + (n - a) by omega, List.range_add]
  rw [List.drop_left' (by simp)]

/-- C9 counterexample: when reading the input file fails, the graph used
is `createCompleteTest`, which has 5000 nodes and a first edge `(0,1)` —
not one empty graph of size 1. -/
theorem loader_fallback_cex :
    (mainGraphInput none).1.length = 5000 ∧
    (mainGraphInput none).2.head? = some (0, 1) := by
  constructor
  · show createCompleteTest.1.length = 5000
    simp [createCompleteTest]
  · show createCompleteTest.2.head? = some (0, 1)
    unfold createCompleteTest
    rw [show (5000 : Nat) = 2 + 4998 by rfl, List.range_add]
    rfl

/-- C9 (amended): when `readGraphFromFile` fails (the file cannot be
opened), `main` of `src/main.cpp` falls back to `createCompleteTest`:
the complete graph on 5000 nodes `0..4999`, with one pair `(i,j)` for
every `i < j < 5000` — not an empty graph of size 1. -/
theorem loader_fallback_complete (i j : Nat) :
    mainGraphInput none = createCompleteTest ∧
    createCompleteTest.1.length = 5000 ∧
    ((i, j) ∈ createCompleteTest.2 ↔ i < j ∧ j < 5000) := by
  refine ⟨rfl, by simp [createCompleteTest], ?_⟩
  unfold createCompleteTest
  simp only [List.mem_flatMap, List.mem_map, List.mem_range]
  constructor
  · rintro ⟨a, ha, b, hb, hab⟩
    have hai : a = i := congrArg Prod.fst hab
    have hbj : b = j := congrArg Prod.snd hab
    subst hai
    subst hbj
    rw [drop_range_eq (by omega)] at hb
    rcases List.mem_map.mp hb with ⟨k, hk, hkeq⟩
    have := List.mem_range.mp hk
    omega
  · rintro ⟨hij, hj⟩
    refine ⟨i, by omega, j, ?_, rfl⟩
    rw [drop_range_eq (by omega)]
    exact List.mem_map.mpr ⟨j - (i + 1), List.mem_range.mpr (by omega), by omega⟩

/-! ## Claim C10: out-of-range rejection in addEdge -/

/-- C10: `Graph::addEdge(u,v)` raises the out-of-range error if and only
if `u` or `v` lies outside `[0,N)`, and when it raises, the graph is
unchanged — the bounds check precedes every mutation. -/
theorem addEdge_out_of_range (g : Graph) (u v : Int) :
    ((g.addEdge u v).2 = true ↔
      u < 0 ∨ (g.num_vertices : Int) ≤ u ∨ v < 0 ∨ (g.num_vertices : Int) ≤ v) ∧
    ((g.addEdge u v).2 = true → (g.addEdge u v).1 = g) := by
  unfold Graph.addEdge
  by_cases h : u < 0 ∨ (g.num_vertices : Int) ≤ u ∨ v < 0 ∨ (g.num_vertices : Int) ≤ v
  · rw [if_pos (by simp only [ge_iff_le, Bool.or_eq_true, decide_eq_true_eq]; tauto)]
    exact ⟨⟨fun _ => h, fun _ => rfl⟩, fun _ => rfl⟩
  · rw [if_neg (by simp only [ge_iff_le, Bool.or_eq_true, decide_eq_true_eq]; tauto)]
    refine ⟨⟨fun hfalse => absurd hfalse (by simp), fun hd => absurd hd h⟩,
      fun hfalse => absurd hfalse (by simp)⟩

/-- Witness for C10 at a concrete out-of-range call. -/
theorem addEdge_out_of_range_witness :
    (oneVertexG.addEdge 0 5).2 = true ∧ (oneVertexG.addEdge 0 5).1 = oneVertexG := by
  have h := addEdge_out_of_range oneVertexG 0 5
  have ht : (oneVertexG.addEdge 0 5).2 = true :=
    h.1.mpr (Or.inr (Or.inr (Or.inr (by decide))))
  exact ⟨ht, h.2 ht⟩

/-! ## Claim C4: monotonicity of MaxColor -/

theorem foldl_max_color_mono {β : Type} (f : CState → β → CState)
    (hf : ∀ s b, s.max_color ≤ (f s b).max_color) :
    ∀ (l : List β) (s : CState), s.max_color ≤ (l.foldl f s).max_color := by
  intro l
  induction l with
  | nil => intro s; exact le_refl _
  | cons b rest ih =>
    intro s
    simp only [List.foldl_cons]
    exact le_trans (hf s b) (ih (f s b))

theorem colorHighContentionVertex_mono (g : Graph) (s : CState) (v : Nat) :
    s.max_color ≤ (colorHighContentionVertex g s v).max_color := by
  unfold colorHighContentionVertex
  dsimp only
  split <;> omega

theorem txnColorStep_mono (g : Graph) (s : CState) (v : Nat) (pre : Int) :
    s.max_color ≤ (txnColorStep g s v pre).max_color := by
  unfold txnColorStep
  dsimp only
  split <;> omega

theorem speculativeStep_mono (g : Graph) (s : CState) (v : Nat) :
    s.max_color ≤ (speculativeStep g s v).max_color := by
  unfold speculativeStep
  split
  · exact le_refl _
  · split
    · exact colorHighContentionVertex_mono g s v
    · dsimp only
      split
      · exact le_refl _
      · exact txnColorStep_mono g s v _

theorem resolveBody_mono (flags : List Bool) (s : CState) (v : Nat) :
    s.max_color ≤ (resolveBody flags s v).max_color := by
  unfold resolveBody
  split
  · dsimp only; omega
  · exact le_refl _

theorem resolveConflicts_mono (g : Graph) (s : CState) (flags : List Bool) :
    s.max_color ≤ (resolveConflicts g s flags).max_color :=
  foldl_max_color_mono (resolveBody flags) (resolveBody_mono flags) _ s

theorem preColorHighDegree_mono (g : Graph) (thr : Int) :
    ∀ (order : List Nat) (colors : List Int) (current_max : Int),
      current_max ≤ (preColorHighDegree g thr order colors current_max).2.1 := by
  intro order
  induction order with
  | nil => intro colors cm; exact le_refl _
  | cons v rest ih =>
    intro colors cm
    unfold preColorHighDegree
    split
    · exact le_trans (le_max_left _ _) (ih _ _)
    · exact le_refl _

theorem resolutionLoop_mono (g : Graph) :
    ∀ (k : Nat) (s : CState), s.max_color ≤ (resolutionLoop g k s).max_color := by
  intro k
  induction k with
  | zero => intro s; exact le_refl _
  | succ k ih =>
    intro s
    unfold resolutionLoop
    split
    · exact le_trans (resolveConflicts_mono g s _) (ih _)
    · exact le_refl _

/-- C4: `MaxColor` is monotone at every update site — the pre-coloring
pass only raises its running maximum (stored over the initial 0), the
speculative commit (transactional path), the serialized high-contention
path, and the repair loop each write a value at least as large as the
one they replace — and consequently the whole run's final counter is at
least its initial value 0. -/
theorem max_color_monotone :
    (∀ (g : Graph) (thr : Int) (order : List Nat) (colors : List Int) (cm : Int),
       cm ≤ (preColorHighDegree g thr order colors cm).2.1) ∧
    (∀ (g : Graph) (s : CState) (v : Nat),
       s.max_color ≤ (colorHighContentionVertex g s v).max_color) ∧
    (∀ (g : Graph) (s : CState) (v : Nat) (pre : Int),
       s.max_color ≤ (txnColorStep g s v pre).max_color) ∧
    (∀ (g : Graph) (s : CState) (v : Nat),
       s.max_color ≤ (speculativeStep g s v).max_color) ∧
    (∀ (g : Graph) (s : CState) (rest : List Nat),
       s.max_color ≤ (speculativePhase g s rest).max_color) ∧
    (∀ (g : Graph) (s : CState) (flags : List Bool),
       s.max_color ≤ (resolveConflicts g s flags).max_color) ∧
    (∀ (g : Graph) (k : Nat) (s : CState),
       s.max_color ≤ (resolutionLoop g k s).max_color) ∧
    (∀ (g : Graph) (num_threads : Nat), 0 ≤ (colorGraphState g num_threads).max_color) :=
  ⟨fun g thr order colors cm => preColorHighDegree_mono g thr order colors cm,
   colorHighContentionVertex_mono,
   txnColorStep_mono,
   speculativeStep_mono,
   fun g s rest => foldl_max_color_mono (speculativeStep g) (speculativeStep_mono g) rest s,
   resolveConflicts_mono,
   resolutionLoop_mono,
   fun g num_threads => by
     unfold colorGraphState
     refine le_trans ?_ (resolutionLoop_mono g 2 _)
     refine le_trans ?_ (foldl_max_color_mono (speculativeStep g) (speculativeStep_mono g) _ _)
     exact preColorHighDegree_mono g _ _ _ 0⟩

/-! ## Claim C2: what the repair rounds do -/

theorem flaggedCountBelow_succ (flags : List Bool) (n : Nat) :
    flaggedCountBelow flags (n + 1) =
      flaggedCountBelow flags n + (if flags.getD n false then 1 else 0) := by
  unfold flaggedCountBelow
  rw [List.range_succ, List.filter_append]
  simp only [List.length_append, List.filter_cons, List.filter_nil]
  split <;> simp

theorem flaggedCountBelow_mono (flags : List Bool) {v w : Nat} (h : v ≤ w) :
    flaggedCountBelow flags v ≤ flaggedCountBelow flags w := by
  induction w with
  | zero =>
    have hv0 : v = 0 := Nat.le_zero.mp h
    rw [hv0]
  | succ w ih =>
    rcases Nat.lt_or_ge v (w + 1) with hlt | hge
    · have hvw : v ≤ w := by omega
      rw [flaggedCountBelow_succ]
      have := ih hvw
      split <;> omega
    · have hv : v = w + 1 := by omega
      subst hv
      exact le_refl _

theorem flaggedCountBelow_strict (flags : List Bool) {v w : Nat} (h : v < w)
    (hflag : flags.getD v false = true) :
    flaggedCountBelow flags v < flaggedCountBelow flags w := by
  have h1 : flaggedCountBelow flags (v + 1) = flaggedCountBelow flags v + 1 := by
    rw [flaggedCountBelow_succ, if_pos hflag]
  have h2 : flaggedCountBelow flags (v + 1) ≤ flaggedCountBelow flags w :=
    flaggedCountBelow_mono flags h
  omega

theorem resolveFold_spec (flags : List Bool) :
    ∀ (n : Nat) (s : CState), n ≤ s.colors.length →
      (((List.range n).foldl (resolveBody flags) s).max_color =
        s.max_color + flaggedCountBelow flags n) ∧
      (((List.range n).foldl (resolveBody flags) s).colors.length = s.colors.length) ∧
      (∀ v, v < n →
        ((List.range n).foldl (resolveBody flags) s).colors.getD v (-1) =
          if flags.getD v false then s.max_color + flaggedCountBelow flags v
          else s.colors.getD v (-1)) ∧
      (∀ v, n ≤ v →
        ((List.range n).foldl (resolveBody flags) s).colors.getD v (-1) =
          s.colors.getD v (-1)) := by
  intro n
  induction n with
  | zero =>
    intro s hn
    refine ⟨by simp [flaggedCountBelow], rfl, fun v hv => absurd hv (by omega), fun v hv => rfl⟩
  | succ n ih =>
    intro s hn
    have hn' : n ≤ s.colors.length := by omega
    obtain ⟨ihm, ihl, ihlt, ihge⟩ := ih s hn'
    rw [List.range_succ, List.foldl_append]
    simp only [List.foldl_cons, List.foldl_nil]
    by_cases hfn : flags.getD n false = true
    · have hbody : resolveBody flags ((List.range n).foldl (resolveBody flags) s) n =
          { colors := ((List.range n).foldl (resolveBody flags) s).colors.set n
              ((List.range n).foldl (resolveBody flags) s).max_color,
            max_color := ((List.range n).foldl (resolveBody flags) s).max_color + 1 } := by
        unfold resolveBody
        rw [if_pos hfn]
      rw [hbody]
      refine ⟨?_, ?_, ?_, ?_⟩
      · dsimp only
        rw [ihm, flaggedCountBelow_succ, if_pos hfn]
        omega
      · dsimp only
        rw [List.length_set, ihl]
      · intro v hv
        dsimp only
        rcases Nat.lt_or_ge v n with hvn | hvn
        · rw [getD_set_ne (by omega)]
          exact ihlt v hvn
        · have hvn' : v = n := by omega
          subst hvn'
          rw [if_pos hfn, getD_set_self (by rw [ihl]; omega), ihm]
      · intro v hv
        dsimp only
        rw [getD_set_ne (by omega)]
        exact ihge v (by omega)
    · have hfn' : flags.getD n false = false := by
        revert hfn
        cases flags.getD n false <;> simp
      have hbody : resolveBody flags ((List.range n).foldl (resolveBody flags) s) n =
          (List.range n).foldl (resolveBody flags) s := by
        unfold resolveBody
        rw [if_neg (by rw [hfn']; exact Bool.false_ne_true)]
      rw [hbody]
      refine ⟨?_, ihl, ?_, ?_⟩
      · rw [ihm, flaggedCountBelow_succ, if_neg (by rw [hfn']; exact Bool.false_ne_true)]
        omega
      · intro v hv
        rcases Nat.lt_or_ge v n with hvn | hvn
        · exact ihlt v hvn
        · have hvn' : v = n := by omega
          subst hvn'
          rw [if_neg (by rw [hfn']; exact Bool.false_ne_true)]
          exact ihge v (le_refl _)
      · intro v hv
        exact ihge v (by omega)

/-- C2 counterexample: at an I1-conforming state (path `0-1-2`, colors
`[1,1,0]`, `max_color = 2`) the first repair round — not the final
allowed one — flags vertex 0 and assigns it `max_color.fetch_add(1) = 2`,
whereas re-running the commit primitive would give
`findMinAvailableColor = 0`. -/
theorem repair_commit_primitive_cex :
    detectConflicts pathThreeG [1, 1, 0] = [true, false, false] ∧
    (resolveConflicts pathThreeG ⟨[1, 1, 0], 2⟩ [true, false, false]).colors = [2, 1, 0] ∧
    (resolutionLoop pathThreeG 2 ⟨[1, 1, 0], 2⟩).colors = [2, 1, 0] ∧
    findMinAvailableColor pathThreeG [1, 1, 0] 0 2 = 0 ∧
    ((2 : Int) ≠ 0) := by
  refine ⟨by decide, by decide, by decide, by decide, by decide⟩

/-- C2 (amended): in every repair round — not only the final allowed
one — each vertex flagged by the conflict detector is assigned a fresh
unique color via `max_color.fetch_add(1)` without checking neighbors;
the commit primitive is never re-run during repair.  Concretely, each
round with conflicts applies `resolveConflicts`, which gives the flagged
vertex of rank `r` the value `max_color + r` (at least the round's
starting `max_color`, pairwise distinct among flagged vertices),
leaves unflagged vertices alone, and leaves `max_color` at its old value
plus the number of flagged vertices. -/
theorem repair_always_fetch_add (g : Graph) (s : CState) (flags : List Bool)
    (k : Nat) (v : Nat) (hv : v < g.num_vertices)
    (hlen : s.colors.length = g.num_vertices) :
    (resolutionLoop g (k + 1) s =
      if hasConflicts g s.colors then
        resolutionLoop g k (resolveConflicts g s (detectConflicts g s.colors))
      else s) ∧
    ((resolveConflicts g s flags).max_color =
      s.max_color + flaggedCountBelow flags g.num_vertices) ∧
    (flags.getD v false = true →
      (resolveConflicts g s flags).colors.getD v (-1) =
        s.max_color + flaggedCountBelow flags v) ∧
    (flags.getD v false = false →
      (resolveConflicts g s flags).colors.getD v (-1) = s.colors.getD v (-1)) ∧
    (∀ w, w < g.num_vertices → v < w →
      flags.getD v false = true → flags.getD w false = true →
      (resolveConflicts g s flags).colors.getD v (-1) ≠
        (resolveConflicts g s flags).colors.getD w (-1)) := by
  have hs := resolveFold_spec flags g.num_vertices s (by omega)
  obtain ⟨hm, hl, hlt, hge⟩ := hs
  refine ⟨rfl, hm, ?_, ?_, ?_⟩
  · intro hf
    have h1 := hlt v hv
    rw [if_pos hf] at h1
    exact h1
  · intro hf
    have h1 := hlt v hv
    rw [if_neg (by rw [hf]; exact Bool.false_ne_true)] at h1
    exact h1
  · intro w hw hvw hfv hfw
    have h1 := hlt v hv
    have h2 := hlt w hw
    rw [if_pos hfv] at h1
    rw [if_pos hfw] at h2
    have e1 : (resolveConflicts g s flags).colors.getD v (-1) =
        s.max_color + (flaggedCountBelow flags v : Int) := h1
    have e2 : (resolveConflicts g s flags).colors.getD w (-1) =
        s.max_color + (flaggedCountBelow flags w : Int) := h2
    rw [e1, e2]
    have := flaggedCountBelow_strict flags hvw hfv
    omega

/-- Witness for C2's amended theorem at the concrete repair state. -/
theorem repair_always_fetch_add_witness :
    (resolveConflicts pathThreeG ⟨[1, 1, 0], 2⟩ [true, false, false]).max_color =
      2 + flaggedCountBelow [true, false, false] 3 ∧
    (resolveConflicts pathThreeG ⟨[1, 1, 0], 2⟩ [true, false, false]).colors.getD 0 (-1) =
      2 + flaggedCountBelow [true, false, false] 0 := by
  have h := repair_always_fetch_add pathThreeG ⟨[1, 1, 0], 2⟩ [true, false, false] 1 0
    (by decide) (by decide)
  exact ⟨h.2.1, h.2.2.1 (by decide)⟩

/-! ## The scan loop and the commit primitive -/

theorem firstNotBad_spec (bad : Nat → Bool) :
    ∀ (n k r : Nat), firstNotBad bad n k = some r →
      bad r = false ∧ k ≤ r ∧ r < k + n ∧ ∀ j, k ≤ j → j < r → bad j = true := by
  intro n
  induction n with
  | zero => intro k r h; exact absurd h (by unfold firstNotBad; simp)
  | succ n ih =>
    intro k r h
    unfold firstNotBad at h
    by_cases hb : bad k = true
    · rw [if_pos hb] at h
      obtain ⟨h1, h2, h3, h4⟩ := ih (k + 1) r h
      refine ⟨h1, by omega, by omega, ?_⟩
      intro j hj1 hj2
      rcases Nat.eq_or_lt_of_le hj1 with hj | hj
      · rw [hj] at hb; exact hb
      · exact h4 j (by omega) hj2
    · rw [if_neg hb] at h
      have hr : r = k := by
        injection h with h'
        omega
      subst hr
      refine ⟨by revert hb; cases bad r <;> simp, le_refl _, by omega, ?_⟩
      intro j hj1 hj2
      omega
  
theorem firstNotBad_exists (bad : Nat → Bool) :
    ∀ (n k m : Nat), k ≤ m → m < k + n → bad m = false →
      ∃ r, firstNotBad bad n k = some r ∧ r ≤ m := by
  intro n
  induction n with
  | zero => intro k m h1 h2; omega
  | succ n ih =>
    intro k m h1 h2 h3
    unfold firstNotBad
    by_cases hb : bad k = true
    · rw [if_pos hb]
      have hkm : k ≠ m := by
        intro hkm
        rw [hkm] at hb
        rw [h3] at hb
        exact Bool.false_ne_true hb
      obtain ⟨r, hr1, hr2⟩ := ih (k + 1) m (by omega) (by omega) h3
      exact ⟨r, hr1, hr2⟩
    · rw [if_neg hb]
      exact ⟨k, rfl, h1⟩

/-- All colors assigned among the neighbors of `v` lie below `cm`. -/
def NeighborColorsBelow (g : Graph) (colors : List Int) (v : Nat) (cm : Int) : Prop :=
  ∀ u ∈ g.getNeighbors v,
    colors.getD u (-1) = -1 ∨ (0 ≤ colors.getD u (-1) ∧ colors.getD u (-1) < cm)

theorem findMinAvailableColor_spec (g : Graph) (colors : List Int) (v : Nat) (cm : Int)
    (hcm : 0 ≤ cm) (hnb : NeighborColorsBelow g colors v cm) :
    0 ≤ findMinAvailableColor g colors v cm ∧
    findMinAvailableColor g colors v cm ≤ cm ∧
    (∀ u ∈ g.getNeighbors v, colors.getD u (-1) ≠ findMinAvailableColor g colors v cm) ∧
    (∀ j : Int, 0 ≤ j → j < findMinAvailableColor g colors v cm →
      ∃ u ∈ g.getNeighbors v, colors.getD u (-1) = j) := by
  have hbadcm : forbiddenColor g colors v ((cm.toNat : Nat) : Int) = false := by
    unfold forbiddenColor
    rw [List.any_eq_false]
    intro u hu
    have h := hnb u hu
    rw [Int.toNat_of_nonneg hcm]
    simp only [beq_iff_eq]
    rcases h with h | ⟨h1, h2⟩ <;> omega
  have hlt : cm.toNat < 0 + (cm + 16).toNat := by omega
  obtain ⟨r, hr, hrle⟩ := firstNotBad_exists
    (fun k => forbiddenColor g colors v (k : Int)) (cm + 16).toNat 0 cm.toNat
    (by omega) hlt hbadcm
  obtain ⟨hbad, _, _, hmin⟩ := firstNotBad_spec
    (fun k => forbiddenColor g colors v (k : Int)) (cm + 16).toNat 0 r hr
  have hval : findMinAvailableColor g colors v cm = (r : Int) := by
    unfold findMinAvailableColor
    dsimp only
    rw [hr]
  rw [hval]
  refine ⟨by omega, by omega, ?_, ?_⟩
  · intro u hu
    unfold forbiddenColor at hbad
    rw [List.any_eq_false] at hbad
    have := hbad u hu
    simpa using this
  · intro j hj0 hjr
    have hjnat : j.toNat < r := by omega
    have hbadj := hmin j.toNat (by omega) hjnat
    unfold forbiddenColor at hbadj
    rw [List.any_eq_true] at hbadj
    obtain ⟨u, hu, hcu⟩ := hbadj
    refine ⟨u, hu, ?_⟩
    have : colors.getD u (-1) = ((j.toNat : Nat) : Int) := by
      exact beq_iff_eq.mp hcu
    rw [this, Int.toNat_of_nonneg hj0]

/-! ## Claim C6: the vertex orderer -/

theorem flatMap_filter_perm (f : Nat → Nat) :
    ∀ (ds : List Nat), ds.Nodup → ∀ (l : List Nat), (∀ x ∈ l, f x ∈ ds) →
      (ds.flatMap (fun d => l.filter (fun v => f v == d))).Perm l := by
  intro ds
  induction ds with
  | nil =>
    intro _ l hl
    simp only [List.flatMap_nil]
    have hnil : l = [] :=
      List.eq_nil_iff_forall_not_mem.mpr (fun x hx => absurd (hl x hx) (List.not_mem_nil _))
    rw [hnil]
  | cons d ds ih =>
    intro hnd l hl
    simp only [List.flatMap_cons]
    have hnd' : ds.Nodup := (List.nodup_cons.mp hnd).2
    have hdnotin : d ∉ ds := (List.nodup_cons.mp hnd).1
    have hrw : ds.flatMap (fun dd => l.filter (fun v => f v == dd)) =
        ds.flatMap (fun dd => (l.filter (fun v => !(f v == d))).filter (fun v => f v == dd)) := by
      apply List.flatMap_congr
      intro dd hdd
      rw [List.filter_filter]
      apply List.filter_congr
      intro v _
      by_cases hfv : f v = dd
      · have hne : ¬ f v = d := by
          intro hcontra
          rw [hcontra] at hfv
          exact hdnotin (hfv ▸ hdd)
        have hddne : ¬ dd = d := by
          intro hc
          exact hne (by rw [hfv, hc])
        simp [hfv, hne, hddne]
      · simp [hfv]
    rw [hrw]
    have hl' : ∀ x ∈ l.filter (fun v => !(f v == d)), f x ∈ ds := by
      intro x hx
      rcases List.mem_filter.mp hx with ⟨hxl, hxp⟩
      rcases List.mem_cons.mp (hl x hxl) with h | h
      · exfalso
        simp only [Bool.not_eq_true', beq_eq_false_iff_ne, ne_eq] at hxp
        exact hxp h
      · exact h
    exact List.Perm.trans (List.Perm.append_left _ (ih hnd' _ hl'))
      (List.filter_append_perm _ l)

theorem le_foldl_max_degree (g : Graph) :
    ∀ (l : List Nat) (m : Nat), m ≤ l.foldl (fun m v => max m (g.degree v)) m := by
  intro l
  induction l with
  | nil => intro m; exact le_refl _
  | cons x rest ih =>
    intro m
    simp only [List.foldl_cons]
    exact le_trans (le_max_left _ _) (ih (max m (g.degree x)))

theorem degree_le_foldl (g : Graph) :
    ∀ (l : List Nat) (m : Nat) (v : Nat), v ∈ l →
      g.degree v ≤ l.foldl (fun m v => max m (g.degree v)) m := by
  intro l
  induction l with
  | nil => intro m v hv; exact absurd hv (List.not_mem_nil _)
  | cons x rest ih =>
    intro m v hv
    simp only [List.foldl_cons]
    rcases List.mem_cons.mp hv with hx | hx
    · subst hx
      exact le_trans (le_max_right _ _) (le_foldl_max_degree g rest _)
    · exact ih _ v hx

theorem degree_le_maxDegree (g : Graph) {v : Nat} (hv : v < g.num_vertices) :
    g.degree v ≤ maxDegree g :=
  degree_le_foldl g _ 0 v (List.mem_range.mpr hv)

theorem binOrder_perm (g : Graph) : (binOrder g).Perm (List.range g.num_vertices) := by
  unfold binOrder
  apply flatMap_filter_perm (g.degree)
  · exact List.nodup_reverse.mpr (List.nodup_range _)
  · intro x hx
    rw [List.mem_reverse, List.mem_range]
    exact Nat.lt_succ_of_le (degree_le_maxDegree g (List.mem_range.mp hx))

theorem sorted_flatMap_desc (g : Graph) :
    ∀ (ds : List Nat), List.Pairwise (fun a b => b < a) ds →
      List.Sorted (degreeLE g)
        (ds.flatMap (fun d => (List.range g.num_vertices).filter (fun v => g.degree v == d))) := by
  intro ds
  induction ds with
  | nil => intro _; simp only [List.flatMap_nil]; exact List.sorted_nil
  | cons d ds ih =>
    intro hpw
    simp only [List.flatMap_cons]
    apply List.pairwise_append.mpr
    refine ⟨?_, ih (List.pairwise_cons.mp hpw).2, ?_⟩
    · have h1 : List.Pairwise (· ≤ ·)
          ((List.range g.num_vertices).filter (fun v => g.degree v == d)) :=
        List.Pairwise.filter _ (List.pairwise_le_range _)
      apply List.Pairwise.imp_of_mem ?_ h1
      intro a b ha hb hab
      have hda : g.degree a = d := by
        have := (List.mem_filter.mp ha).2
        exact beq_iff_eq.mp this
      have hdb : g.degree b = d := by
        have := (List.mem_filter.mp hb).2
        exact beq_iff_eq.mp this
      exact Or.inr ⟨hda.trans hdb.symm, hab⟩
    · intro a ha b hb
      have hda : g.degree a = d := by
        have := (List.mem_filter.mp ha).2
        exact beq_iff_eq.mp this
      rcases List.mem_flatMap.mp hb with ⟨dd, hdd, hbchunk⟩
      have hdb : g.degree b = dd := by
        have := (List.mem_filter.mp hbchunk).2
        exact beq_iff_eq.mp this
      have hlt : dd < d := (List.pairwise_cons.mp hpw).1 dd hdd
      exact Or.inl (by omega)

theorem binOrder_sorted (g : Graph) : List.Sorted (degreeLE g) (binOrder g) := by
  unfold binOrder
  apply sorted_flatMap_desc
  apply List.pairwise_reverse.mpr
  exact List.pairwise_lt_range _

theorem prepareVertices_perm (g : Graph) :
    (prepareVertices g).Perm (List.range g.num_vertices) := by
  unfold prepareVertices
  split
  · exact binOrder_perm g
  · exact List.perm_insertionSort _ _

theorem prepareVertices_sorted (g : Graph) :
    List.Sorted (degreeLE g) (prepareVertices g) := by
  unfold prepareVertices
  split
  · exact binOrder_sorted g
  · exact List.sorted_insertionSort _ _

/-- C6: the vertex orderer produces exactly the permutation of `0..N-1`
sorted by (descending degree, ascending index): the result is sorted by
`degreeLE` and is a permutation of `List.range N` (by antisymmetry of
`degreeLE` there is exactly one such list), for both branches; in
particular the counting-bin path equals the comparison-sort path on
every graph. -/
theorem prepareVertices_exact_order (g : Graph) :
    List.Sorted (degreeLE g) (prepareVertices g) ∧
    (prepareVertices g).Perm (List.range g.num_vertices) ∧
    binOrder g = List.insertionSort (degreeLE g) (List.range g.num_vertices) := by
  refine ⟨prepareVertices_sorted g, prepareVertices_perm g, ?_⟩
  exact List.eq_of_perm_of_sorted
    ((binOrder_perm g).trans (List.perm_insertionSort _ _).symm)
    (binOrder_sorted g) (List.sorted_insertionSort _ _)

/-! ## Claim C5: the pre-coloring pass computes the mex -/

theorem mex_gap_exists (cs : List Int) :
    ∃ m, m ≤ cs.length ∧ cs.contains ((m : Nat) : Int) = false := by
  by_contra hcon
  push_neg at hcon
  have hall : ∀ m, m ≤ cs.length → ((m : Nat) : Int) ∈ cs := by
    intro m hm
    have := hcon m hm
    have hne : cs.contains ((m : Nat) : Int) = true := by
      revert this
      cases cs.contains ((m : Nat) : Int) <;> simp
    exact List.elem_iff.mp hne
  have hnd : ((List.range (cs.length + 1)).map (fun k => ((k : Nat) : Int))).Nodup := by
    apply List.Nodup.map
    · intro a b hab
      simpa using hab
    · exact List.nodup_range _
  have hsub : ((List.range (cs.length + 1)).map (fun k => ((k : Nat) : Int))).toFinset ⊆
      cs.toFinset := by
    intro x hx
    rw [List.mem_toFinset] at hx ⊢
    rcases List.mem_map.mp hx with ⟨k, hk, rfl⟩
    exact hall k (Nat.lt_succ_iff.mp (List.mem_range.mp hk))
  have hcard1 : ((List.range (cs.length + 1)).map (fun k => ((k : Nat) : Int))).toFinset.card =
      cs.length + 1 := by
    rw [List.toFinset_card_of_nodup hnd]
    simp
  have hcard2 : cs.toFinset.card ≤ cs.length := cs.toFinset_card_le
  have := Finset.card_le_card hsub
  omega

theorem mexSpec_spec (cs : List Int) :
    0 ≤ mexSpec cs ∧ mexSpec cs ∉ cs ∧
      ∀ j : Int, 0 ≤ j → j < mexSpec cs → j ∈ cs := by
  obtain ⟨m, hm1, hm2⟩ := mex_gap_exists cs
  obtain ⟨r, hr, hrle⟩ := firstNotBad_exists
    (fun k => cs.contains ((k : Nat) : Int)) (cs.length + 1) 0 m (by omega) (by omega) hm2
  obtain ⟨hbad, _, _, hmin⟩ := firstNotBad_spec
    (fun k => cs.contains ((k : Nat) : Int)) (cs.length + 1) 0 r hr
  have hval : mexSpec cs = (r : Int) := by
    unfold mexSpec
    rw [hr]
  rw [hval]
  refine ⟨by omega, ?_, ?_⟩
  · intro hmem
    have : cs.contains ((r : Nat) : Int) = true := List.elem_iff.mpr hmem
    rw [this] at hbad
    exact absurd hbad (by simp)
  · intro j hj0 hjr
    have hjt := hmin j.toNat (by omega) (by omega)
    have : ((j.toNat : Nat) : Int) ∈ cs := List.elem_iff.mp hjt
    rwa [Int.toNat_of_nonneg hj0] at this

theorem mem_coloredNeighborColors {g : Graph} {colors : List Int} {v : Nat} {x : Int} :
    x ∈ coloredNeighborColors g colors v ↔
      (∃ u ∈ g.getNeighbors v, colors.getD u (-1) = x) ∧ x ≠ -1 := by
  unfold coloredNeighborColors
  rw [List.mem_filter, List.mem_map]
  constructor
  · rintro ⟨⟨u, hu, hux⟩, hp⟩
    refine ⟨⟨u, hu, hux⟩, ?_⟩
    simpa using hp
  · rintro ⟨⟨u, hu, hux⟩, hne⟩
    refine ⟨⟨u, hu, hux⟩, ?_⟩
    simpa using hne

theorem fmac_eq_mexSpec (g : Graph) (colors : List Int) (v : Nat) (cm : Int)
    (hcm : 0 ≤ cm) (hnb : NeighborColorsBelow g colors v cm) :
    findMinAvailableColor g colors v cm = mexSpec (coloredNeighborColors g colors v) := by
  obtain ⟨hf0, hfle, hfavoid, hfmin⟩ := findMinAvailableColor_spec g colors v cm hcm hnb
  obtain ⟨hm0, hmnot, hmmin⟩ := mexSpec_spec (coloredNeighborColors g colors v)
  rcases lt_trichotomy (findMinAvailableColor g colors v cm)
      (mexSpec (coloredNeighborColors g colors v)) with h | h | h
  · exfalso
    have hmem := hmmin _ hf0 h
    rcases mem_coloredNeighborColors.mp hmem with ⟨⟨u, hu, hux⟩, _⟩
    exact hfavoid u hu hux
  · exact h
  · exfalso
    obtain ⟨u, hu, hux⟩ := hfmin _ hm0 h
    apply hmnot
    apply mem_coloredNeighborColors.mpr
    refine ⟨⟨u, hu, hux⟩, ?_⟩
    omega

theorem getD_replicate_neg1 {n v : Nat} : (List.replicate n (-1 : Int)).getD v (-1) = -1 := by
  rw [List.getD_eq_getElem?_getD, List.getElem?_replicate]
  split <;> rfl

theorem ColorsOK_set {g : Graph} {colors : List Int} {cm : Int} (h : ColorsOK g colors cm)
    (v : Nat) (c cm' : Int) (hc : 0 ≤ c) (hlt : c < cm') (hmono : cm ≤ cm') :
    ColorsOK g (colors.set v c) cm' := by
  intro w hw
  by_cases hwv : w = v
  · subst hwv
    by_cases hvlen : w < colors.length
    · rw [getD_set_self hvlen]
      exact Or.inr ⟨hc, hlt⟩
    · rw [List.set_eq_of_length_le (Nat.le_of_not_lt hvlen)]
      rcases h w hw with h1 | ⟨h1, h2⟩
      · exact Or.inl h1
      · exact Or.inr ⟨h1, by omega⟩
  · rw [getD_set_ne hwv]
    rcases h w hw with h1 | ⟨h1, h2⟩
    · exact Or.inl h1
    · exact Or.inr ⟨h1, by omega⟩

theorem preColor_eq_spec (g : Graph)
    (hb : ∀ w, w < g.num_vertices → ∀ u ∈ g.getNeighbors w, u < g.num_vertices)
    (thr : Int) :
    ∀ (order : List Nat) (colors : List Int) (cm : Int),
      (∀ w ∈ order, w < g.num_vertices) → 0 ≤ cm → ColorsOK g colors cm →
      preColorHighDegree g thr order colors cm = specPreColor g thr order colors cm := by
  intro order
  induction order with
  | nil => intro colors cm _ _ _; rfl
  | cons v rest ih =>
    intro colors cm hmem hcm hok
    unfold preColorHighDegree specPreColor
    by_cases hdeg : (g.degree v : Int) > thr
    · rw [if_pos hdeg, if_pos hdeg]
      have hv : v < g.num_vertices := hmem v (List.mem_cons_self v rest)
      have hnb : NeighborColorsBelow g colors v cm := fun u hu => hok u (hb v hv u hu)
      obtain ⟨hc0, hcle, _, _⟩ := findMinAvailableColor_spec g colors v cm hcm hnb
      have hc : mexSpec (coloredNeighborColors g colors v) =
          findMinAvailableColor g colors v cm :=
        (fmac_eq_mexSpec g colors v cm hcm hnb).symm
      dsimp only
      rw [hc]
      apply ih
      · intro w hw
        exact hmem w (List.mem_cons_of_mem _ hw)
      · exact le_trans hcm (le_max_left _ _)
      · exact ColorsOK_set hok v _ _ hc0 (by omega) (le_max_left _ _)
    · rw [if_neg hdeg, if_neg hdeg]

theorem foldl_maxp_max :
    ∀ (l : List Int) (x y : Int),
      l.foldl (fun a c => max a (c + 1)) (max x y) =
        max x (l.foldl (fun a c => max a (c + 1)) y) := by
  intro l
  induction l with
  | nil => intro x y; rfl
  | cons c t ih =>
    intro x y
    simp only [List.foldl_cons]
    rw [max_assoc, ih x (max y (c + 1))]

theorem foldl_maxp_set :
    ∀ (l : List Int) (v : Nat) (c x : Int), 0 ≤ x → v < l.length → l.getD v (-1) = -1 →
      (l.set v c).foldl (fun a b => max a (b + 1)) x =
        max (l.foldl (fun a b => max a (b + 1)) x) (c + 1) := by
  intro l
  induction l with
  | nil => intro v c x _ hv _; exact absurd hv (by simp)
  | cons a t ih =>
    intro v c x hx hv ha
    cases v with
    | zero =>
      have ha' : a = -1 := by simpa using ha
      subst ha'
      simp only [List.set_cons_zero, List.foldl_cons]
      have h1 : max x ((-1 : Int) + 1) = x := by omega
      rw [h1]
      have h2 : max x (c + 1) = max (c + 1) x := max_comm _ _
      rw [h2, foldl_maxp_max t (c + 1) x]
      exact max_comm _ _
    | succ v =>
      simp only [List.set_cons_succ, List.foldl_cons]
      exact ih v c (max x (a + 1)) (le_trans hx (le_max_left _ _))
        (by simpa using hv) (by simpa using ha)

theorem foldl_maxp_replicate :
    ∀ (n : Nat) (x : Int), 0 ≤ x →
      (List.replicate n (-1 : Int)).foldl (fun a b => max a (b + 1)) x = x := by
  intro n
  induction n with
  | zero => intro x _; rfl
  | succ n ih =>
    intro x hx
    rw [List.replicate_succ]
    simp only [List.foldl_cons]
    have h1 : max x ((-1 : Int) + 1) = x := by omega
    rw [h1]
    exact ih x hx

theorem preColor_max_formula (g : Graph) (thr : Int) :
    ∀ (order : List Nat) (colors : List Int) (cm : Int),
      (∀ w ∈ order, w < colors.length) → order.Nodup →
      (∀ w ∈ order, colors.getD w (-1) = -1) →
      cm = colors.foldl (fun a c => max a (c + 1)) 0 →
      (preColorHighDegree g thr order colors cm).2.1 =
        (preColorHighDegree g thr order colors cm).1.foldl (fun a c => max a (c + 1)) 0 := by
  intro order
  induction order with
  | nil => intro colors cm _ _ _ hcm; exact hcm
  | cons v rest ih =>
    intro colors cm hlen hnd hfresh hcm
    unfold preColorHighDegree
    by_cases hdeg : (g.degree v : Int) > thr
    · rw [if_pos hdeg]
      dsimp only
      have hvlen : v < colors.length := hlen v (List.mem_cons_self v rest)
      have hvfresh : colors.getD v (-1) = -1 := hfresh v (List.mem_cons_self v rest)
      have hvnotin : v ∉ rest := (List.nodup_cons.mp hnd).1
      apply ih
      · intro w hw
        rw [List.length_set]
        exact hlen w (List.mem_cons_of_mem _ hw)
      · exact (List.nodup_cons.mp hnd).2
      · intro w hw
        have hwv : w ≠ v := fun hc => hvnotin (hc ▸ hw)
        rw [getD_set_ne hwv]
        exact hfresh w (List.mem_cons_of_mem _ hw)
      · rw [foldl_maxp_set colors v _ 0 (le_refl 0) hvlen hvfresh, ← hcm]
    · rw [if_neg hdeg]
      exact hcm

/-- C5: the pre-coloring pass uses threshold `max(50, N/100)`, walks the
degree order from the front while the degree exceeds the threshold,
assigns each such vertex the mex of its already-colored neighbors'
colors (it coincides with `specPreColor`, the pass written exactly as
the spec words it), and afterwards `MaxColor` equals the maximum
assigned color plus one — at least its prior value 0 (the fold below is
`max(0, max(color)+1)`, unassigned cells contributing their prior 0). -/
theorem preColor_pass_spec (g : Graph)
    (hb : ∀ w, w < g.num_vertices → ∀ u ∈ g.getNeighbors w, u < g.num_vertices) :
    preColorHighDegree g (max 50 ((g.num_vertices : Int) / 100)) (prepareVertices g)
        (List.replicate g.num_vertices (-1)) 0 =
      specPreColor g (max 50 ((g.num_vertices : Int) / 100)) (prepareVertices g)
        (List.replicate g.num_vertices (-1)) 0 ∧
    (preColorHighDegree g (max 50 ((g.num_vertices : Int) / 100)) (prepareVertices g)
        (List.replicate g.num_vertices (-1)) 0).2.1 =
      (preColorHighDegree g (max 50 ((g.num_vertices : Int) / 100)) (prepareVertices g)
          (List.replicate g.num_vertices (-1)) 0).1.foldl
        (fun a c => max a (c + 1)) 0 := by
  have hperm := prepareVertices_perm g
  have hmem : ∀ w ∈ prepareVertices g, w < g.num_vertices := fun w hw =>
    List.mem_range.mp (hperm.mem_iff.mp hw)
  constructor
  · apply preColor_eq_spec g hb
    · exact hmem
    · exact le_refl 0
    · intro w _
      exact Or.inl getD_replicate_neg1
  · apply preColor_max_formula
    · intro w hw
      rw [List.length_replicate]
      exact hmem w hw
    · exact hperm.nodup_iff.mpr (List.nodup_range _)
    · intro w _
      exact getD_replicate_neg1
    · exact (foldl_maxp_replicate g.num_vertices 0 (le_refl 0)).symm

/-- Witness for C5 at the triangle graph. -/
theorem preColor_pass_spec_witness :
    preColorHighDegree triangleG (max 50 ((triangleG.num_vertices : Int) / 100))
        (prepareVertices triangleG) (List.replicate triangleG.num_vertices (-1)) 0 =
      specPreColor triangleG (max 50 ((triangleG.num_vertices : Int) / 100))
        (prepareVertices triangleG) (List.replicate triangleG.num_vertices (-1)) 0 ∧
    (preColorHighDegree triangleG (max 50 ((triangleG.num_vertices : Int) / 100))
        (prepareVertices triangleG) (List.replicate triangleG.num_vertices (-1)) 0).2.1 =
      (preColorHighDegree triangleG (max 50 ((triangleG.num_vertices : Int) / 100))
          (prepareVertices triangleG) (List.replicate triangleG.num_vertices (-1)) 0).1.foldl
        (fun a c => max a (c + 1)) 0 :=
  preColor_pass_spec triangleG (by decide)

/-! ## Claim C1: the full pipeline returns a proper coloring -/

theorem assign_inv (g : Graph) (hwf : g.WF) {s : CState} (hs : RunInv g s)
    {v : Nat} (hv : v < g.num_vertices) {c m' : Int}
    (hc0 : 0 ≤ c)
    (havoid : ∀ u ∈ g.getNeighbors v, s.colors.getD u (-1) ≠ c)
    (hm1 : s.max_color ≤ m') (hm2 : c < m') :
    RunInv g { colors := s.colors.set v c, max_color := m' } := by
  obtain ⟨hb, hsym, hirr⟩ := hwf
  obtain ⟨hlen, hmax0, hok, hprop⟩ := hs
  refine ⟨by rw [List.length_set]; exact hlen, by change (0 : Int) ≤ m'; omega,
    ColorsOK_set hok v c m' hc0 hm2 hm1, ?_⟩
  intro w hw u hu
  by_cases hwv : w = v
  · subst hwv
    have huw : u ≠ w := fun hc2 => hirr w hw (hc2 ▸ hu)
    rw [getD_set_self (by rw [hlen]; exact hw), getD_set_ne huw]
    by_cases hucol : s.colors.getD u (-1) = -1
    · exact Or.inr (Or.inl hucol)
    · refine Or.inr (Or.inr ?_)
      intro hc2
      exact havoid u hu hc2.symm
  · by_cases huv : u = v
    · subst huv
      rw [getD_set_ne hwv, getD_set_self (by rw [hlen]; exact hv)]
      have hwadj : w ∈ g.getNeighbors u := hsym w hw u hu
      by_cases hwcol : s.colors.getD w (-1) = -1
      · exact Or.inl hwcol
      · exact Or.inr (Or.inr (fun hc2 => havoid w hwadj hc2))
    · rw [getD_set_ne hwv, getD_set_ne huv]
      exact hprop w hw u hu

theorem fmac_facts (g : Graph)
    (hb : ∀ w, w < g.num_vertices → ∀ u ∈ g.getNeighbors w, u < g.num_vertices)
    {colors : List Int} {cm : Int} (hcm : 0 ≤ cm) (hok : ColorsOK g colors cm)
    {v : Nat} (hv : v < g.num_vertices) :
    0 ≤ findMinAvailableColor g colors v cm ∧
    findMinAvailableColor g colors v cm ≤ cm ∧
    (∀ u ∈ g.getNeighbors v, colors.getD u (-1) ≠ findMinAvailableColor g colors v cm) := by
  have hnb : NeighborColorsBelow g colors v cm := fun u hu => hok u (hb v hv u hu)
  obtain ⟨h1, h2, h3, _⟩ := findMinAvailableColor_spec g colors v cm hcm hnb
  exact ⟨h1, h2, h3⟩

theorem colorHighContentionVertex_inv (g : Graph) (hwf : g.WF) {s : CState}
    (hs : RunInv g s) {v : Nat} (hv : v < g.num_vertices) :
    RunInv g (colorHighContentionVertex g s v) ∧
    (colorHighContentionVertex g s v).colors.getD v (-1) ≠ -1 ∧
    (∀ w, s.colors.getD w (-1) ≠ -1 →
      (colorHighContentionVertex g s v).colors.getD w (-1) ≠ -1) := by
  obtain ⟨hc0, hcle, havoid⟩ := fmac_facts g hwf.1 hs.2.1 hs.2.2.1 hv
  have hlen := hs.1
  unfold colorHighContentionVertex
  dsimp only
  refine ⟨?_, ?_, ?_⟩
  · apply assign_inv g hwf hs hv hc0 havoid
    · split <;> omega
    · split <;> omega
  · rw [getD_set_self (by rw [hlen]; exact hv)]
    omega
  · intro w hw
    by_cases hwv : w = v
    · subst hwv
      rw [getD_set_self (by rw [hlen]; exact hv)]
      omega
    · rw [getD_set_ne hwv]
      exact hw

theorem txnColorStep_inv (g : Graph) (hwf : g.WF) {s : CState}
    (hs : RunInv g s) {v : Nat} (hv : v < g.num_vertices)
    (hpre : ¬ findMinAvailableColor g s.colors v s.max_color < s.max_color) :
    RunInv g (txnColorStep g s v (findMinAvailableColor g s.colors v s.max_color)) ∧
    (txnColorStep g s v
      (findMinAvailableColor g s.colors v s.max_color)).colors.getD v (-1) ≠ -1 ∧
    (∀ w, s.colors.getD w (-1) ≠ -1 →
      (txnColorStep g s v
        (findMinAvailableColor g s.colors v s.max_color)).colors.getD w (-1) ≠ -1) := by
  obtain ⟨hc0, hcle, havoid⟩ := fmac_facts g hwf.1 hs.2.1 hs.2.2.1 hv
  have hlen := hs.1
  unfold txnColorStep
  dsimp only
  rw [if_neg hpre]
  refine ⟨?_, ?_, ?_⟩
  · apply assign_inv g hwf hs hv hc0 havoid
    · split <;> omega
    · split <;> omega
  · rw [getD_set_self (by rw [hlen]; exact hv)]
    omega
  · intro w hw
    by_cases hwv : w = v
    · subst hwv
      rw [getD_set_self (by rw [hlen]; exact hv)]
      omega
    · rw [getD_set_ne hwv]
      exact hw

theorem speculativeStep_inv (g : Graph) (hwf : g.WF) {s : CState}
    (hs : RunInv g s) {v : Nat} (hv : v < g.num_vertices) :
    RunInv g (speculativeStep g s v) ∧
    (speculativeStep g s v).colors.getD v (-1) ≠ -1 ∧
    (∀ w, s.colors.getD w (-1) ≠ -1 →
      (speculativeStep g s v).colors.getD w (-1) ≠ -1) := by
  unfold speculativeStep
  by_cases hcol : s.colors.getD v (-1) ≠ -1
  · rw [if_pos hcol]
    exact ⟨hs, hcol, fun w hw => hw⟩
  · rw [if_neg hcol]
    by_cases hdeg : g.degree v > 100
    · rw [if_pos hdeg]
      exact colorHighContentionVertex_inv g hwf hs hv
    · rw [if_neg hdeg]
      dsimp only
      by_cases hpre : findMinAvailableColor g s.colors v s.max_color < s.max_color
      · rw [if_pos hpre]
        obtain ⟨hc0, hcle, havoid⟩ := fmac_facts g hwf.1 hs.2.1 hs.2.2.1 hv
        have hlen := hs.1
        refine ⟨?_, ?_, ?_⟩
        · exact assign_inv g hwf hs hv hc0 havoid (le_refl _) hpre
        · rw [getD_set_self (by rw [hlen]; exact hv)]
          omega
        · intro w hw
          by_cases hwv : w = v
          · subst hwv
            rw [getD_set_self (by rw [hlen]; exact hv)]
            omega
          · rw [getD_set_ne hwv]
            exact hw
      · rw [if_neg hpre]
        exact txnColorStep_inv g hwf hs hv hpre

theorem speculativePhase_inv (g : Graph) (hwf : g.WF) :
    ∀ (rest : List Nat) (s : CState), RunInv g s →
      (∀ w ∈ rest, w < g.num_vertices) →
      RunInv g (speculativePhase g s rest) ∧
      (∀ w, s.colors.getD w (-1) ≠ -1 →
        (speculativePhase g s rest).colors.getD w (-1) ≠ -1) ∧
      (∀ w ∈ rest, (speculativePhase g s rest).colors.getD w (-1) ≠ -1) := by
  intro rest
  induction rest with
  | nil =>
    intro s hs _
    exact ⟨hs, fun w hw => hw, fun w hw => absurd hw (List.not_mem_nil _)⟩
  | cons v rest ih =>
    intro s hs hmem
    have hv : v < g.num_vertices := hmem v (List.mem_cons_self v rest)
    obtain ⟨hstep, hvcol, hpres⟩ := speculativeStep_inv g hwf hs hv
    unfold speculativePhase
    simp only [List.foldl_cons]
    obtain ⟨ih1, ih2, ih3⟩ := ih (speculativeStep g s v) hstep
      (fun w hw => hmem w (List.mem_cons_of_mem _ hw))
    refine ⟨ih1, ?_, ?_⟩
    · intro w hw
      exact ih2 w (hpres w hw)
    · intro w hw
      rcases List.mem_cons.mp hw with hwv | hwrest
      · subst hwv
        exact ih2 w hvcol
      · exact ih3 w hwrest

theorem preColorHighDegree_inv (g : Graph) (hwf : g.WF) (thr : Int) :
    ∀ (order : List Nat) (colors : List Int) (cm : Int),
      RunInv g { colors := colors, max_color := cm } →
      (∀ w ∈ order, w < g.num_vertices) →
      RunInv g { colors := (preColorHighDegree g thr order colors cm).1,
                 max_color := (preColorHighDegree g thr order colors cm).2.1 } ∧
      (∀ w, colors.getD w (-1) ≠ -1 →
        (preColorHighDegree g thr order colors cm).1.getD w (-1) ≠ -1) ∧
      (∃ processed, order = processed ++ (preColorHighDegree g thr order colors cm).2.2 ∧
        ∀ w ∈ processed, (preColorHighDegree g thr order colors cm).1.getD w (-1) ≠ -1) ∧
      (∀ w ∈ (preColorHighDegree g thr order colors cm).2.2, w < g.num_vertices) := by
  intro order
  induction order with
  | nil =>
    intro colors cm hs _
    exact ⟨hs, fun w hw => hw, ⟨[], rfl, fun w hw => absurd hw (List.not_mem_nil _)⟩,
      fun w hw => absurd hw (List.not_mem_nil _)⟩
  | cons v rest ih =>
    intro colors cm hs hmem
    have hv : v < g.num_vertices := hmem v (List.mem_cons_self v rest)
    unfold preColorHighDegree
    by_cases hdeg : (g.degree v : Int) > thr
    · rw [if_pos hdeg]
      dsimp only
      obtain ⟨hc0, hcle, havoid⟩ := fmac_facts g hwf.1 hs.2.1 hs.2.2.1 hv
      dsimp only at hc0 hcle havoid
      have hlen := hs.1
      have hstep : RunInv g
          { colors := colors.set v (findMinAvailableColor g colors v cm),
            max_color := max cm (findMinAvailableColor g colors v cm + 1) } :=
        assign_inv g hwf hs hv hc0 havoid (le_max_left _ _)
          (lt_of_lt_of_le (by omega) (le_max_right _ _))
      obtain ⟨ih1, ih2, ⟨processed, hdecomp, hprocessed⟩, ih4⟩ :=
        ih (colors.set v (findMinAvailableColor g colors v cm))
          (max cm (findMinAvailableColor g colors v cm + 1)) hstep
          (fun w hw => hmem w (List.mem_cons_of_mem _ hw))
      refine ⟨ih1, ?_, ⟨v :: processed, ?_, ?_⟩, ih4⟩
      · intro w hw
        apply ih2
        by_cases hwv : w = v
        · subst hwv
          rw [getD_set_self (by rw [hlen]; exact hv)]
          omega
        · rw [getD_set_ne hwv]
          exact hw
      · rw [List.cons_append]
        exact congrArg (fun t => v :: t) hdecomp
      · intro w hw
        rcases List.mem_cons.mp hw with hwv | hwp
        · subst hwv
          apply ih2
          rw [getD_set_self (by rw [hlen]; exact hv)]
          omega
        · exact hprocessed w hwp
    · rw [if_neg hdeg]
      refine ⟨hs, fun w hw => hw, ⟨[], rfl, fun w hw => absurd hw (List.not_mem_nil _)⟩, hmem⟩

theorem hasConflicts_false_of_proper (g : Graph) (hwf : g.WF) {colors : List Int}
    (hall : ∀ w, w < g.num_vertices → colors.getD w (-1) ≠ -1)
    (hprop : ProperPartial g colors) :
    hasConflicts g colors = false := by
  unfold hasConflicts
  rw [List.any_eq_false]
  intro v hv
  rw [List.mem_range] at hv
  rw [Bool.not_eq_true, List.any_eq_false]
  intro u hu
  by_cases hlt : u < v
  · simp [hlt]
  · have huv : u ≠ v := by
      intro hc
      exact hwf.2.2 v hv (hc ▸ hu)
    have hne : colors.getD v (-1) ≠ colors.getD u (-1) := by
      rcases hprop v hv u hu with h | h | h
      · exact absurd h (hall v hv)
      · exact absurd h (hall u (hwf.1 v hv u hu))
      · exact h
    have hbe : (colors.getD v (-1) == colors.getD u (-1)) = false := by
      simp only [beq_eq_false_iff_ne, ne_eq]
      exact hne
    rw [hbe, Bool.and_false]
    simp

theorem resolutionLoop_noop (g : Graph) {s : CState}
    (hnc : hasConflicts g s.colors = false) :
    ∀ k, resolutionLoop g k s = s := by
  intro k
  cases k with
  | zero => rfl
  | succ k =>
    unfold resolutionLoop
    rw [if_neg (by rw [hnc]; exact Bool.false_ne_true)]

theorem verifyColoring_of_proper (g : Graph) (hwf : g.WF) {colors : List Int}
    (hall : ∀ w, w < g.num_vertices → colors.getD w (-1) ≠ -1)
    (hprop : ProperPartial g colors) :
    verifyColoring g colors = true := by
  unfold verifyColoring
  rw [List.all_eq_true]
  intro v hv
  rw [List.mem_range] at hv
  rw [List.all_eq_true]
  intro u hu
  have hne : colors.getD v (-1) ≠ colors.getD u (-1) := by
    rcases hprop v hv u hu with h | h | h
    · exact absurd h (hall v hv)
    · exact absurd h (hall u (hwf.1 v hv u hu))
    · exact h
  simp only [Bool.not_eq_true', beq_eq_false_iff_ne, ne_eq]
  exact hne

/-- C1: for every well-formed input graph (in-range, symmetric,
self-loop-free adjacency — the spec's data-model invariants I4/I5) and
every worker count, the coloring returned by the speculative parallel
engine (pre-color pass, speculative phase, conflict-detection/repair
loop) is a proper coloring: the verifier confirms that for every edge
the endpoint colors differ — and with all vertices colored and I1
holding, every color is ≥ 0. -/
theorem colorGraph_proper (g : Graph) (num_threads : Nat) (hwf : g.WF) :
    verifyColoring g (colorGraph g num_threads) = true ∧
    (∀ w, w < g.num_vertices → 0 ≤ (colorGraph g num_threads).getD w (-1)) := by
  have hperm := prepareVertices_perm g
  have hmem : ∀ w ∈ prepareVertices g, w < g.num_vertices := fun w hw =>
    List.mem_range.mp (hperm.mem_iff.mp hw)
  have hinit : RunInv g { colors := List.replicate g.num_vertices (-1), max_color := 0 } := by
    refine ⟨List.length_replicate _ _, le_refl 0, ?_, ?_⟩
    · intro w _
      exact Or.inl getD_replicate_neg1
    · intro w _ u _
      exact Or.inl getD_replicate_neg1
  obtain ⟨hs1, hpres1, ⟨processed, hdecomp, hprocessed⟩, hrest⟩ :=
    preColorHighDegree_inv g hwf (max 50 ((g.num_vertices : Int) / 100))
      (prepareVertices g) (List.replicate g.num_vertices (-1)) 0 hinit hmem
  obtain ⟨hs2, hpres2, hrestcol⟩ := speculativePhase_inv g hwf
    ((preColorHighDegree g (max 50 ((g.num_vertices : Int) / 100)) (prepareVertices g)
        (List.replicate g.num_vertices (-1)) 0).2.2)
    { colors := (preColorHighDegree g (max 50 ((g.num_vertices : Int) / 100))
        (prepareVertices g) (List.replicate g.num_vertices (-1)) 0).1,
      max_color := (preColorHighDegree g (max 50 ((g.num_vertices : Int) / 100))
        (prepareVertices g) (List.replicate g.num_vertices (-1)) 0).2.1 }
    hs1 hrest
  set pre := preColorHighDegree g (max 50 ((g.num_vertices : Int) / 100)) (prepareVertices g)
    (List.replicate g.num_vertices (-1)) 0 with hpre
  set s2 := speculativePhase g { colors := pre.1, max_color := pre.2.1 } pre.2.2 with hs2def
  have hall : ∀ w, w < g.num_vertices → s2.colors.getD w (-1) ≠ -1 := by
    intro w hw
    have hworder : w ∈ prepareVertices g := hperm.mem_iff.mpr (List.mem_range.mpr hw)
    rw [hdecomp] at hworder
    rcases List.mem_append.mp hworder with hwp | hwr
    · exact hpres2 w (hprocessed w hwp)
    · exact hrestcol w hwr
  have hnc : hasConflicts g s2.colors = false :=
    hasConflicts_false_of_proper g hwf hall hs2.2.2.2
  have hloop : resolutionLoop g 2 s2 = s2 := resolutionLoop_noop g hnc 2
  have hcolors : colorGraph g num_threads = s2.colors := by
    unfold colorGraph colorGraphState
    dsimp only
    rw [← hpre, ← hs2def, hloop]
  rw [hcolors]
  constructor
  · exact verifyColoring_of_proper g hwf hall hs2.2.2.2
  · intro w hw
    rcases hs2.2.2.1 w hw with h | ⟨h1, _⟩
    · exact absurd h (hall w hw)
    · exact h1

/-- Witness for C1 at the triangle, with 4 worker threads. -/
theorem colorGraph_proper_witness :
    verifyColoring triangleG (colorGraph triangleG 4) = true ∧
    (∀ w, w < triangleG.num_vertices → 0 ≤ (colorGraph triangleG 4).getD w (-1)) :=
  colorGraph_proper triangleG 4 (by decide)
